import Mathlib

/-!
Verification of the guillotine-cut MISR dynamic-programming engine
(`Guillotine_Cut_MISR.cpp`): coordinate compression, the memoized
recursive `solve`, and the reconstruction pass `recon`, together with the
program's input parsing.  The C++ recursion is embedded as a fuel-indexed
structurally recursive function; the fuel is instantiated with the
window measure `(xj - xi) + (yl - yk)`, which strictly decreases at every
recursive call, so the fuel never runs out (made precise by
`solveF_stable` / `solve_eq`).
-/

/-- A rectangle as read from the input: `xl yb xr yt` (C++ `struct Rect`,
with `long long` coordinates embedded as `Int`). -/
structure Rect where
  xl : Int
  yb : Int
  xr : Int
  yt : Int
deriving DecidableEq, Repr

/-- A rectangle's bounds re-expressed as indices into the compressed
coordinate arrays (C++ `struct RI`). -/
structure RI where
  xl : Nat
  xr : Nat
  yb : Nat
  yt : Nat
deriving DecidableEq, Repr

/-- A stored decision (C++ `struct Choice`): `type` 1 = leaf rectangle
(param = rid), 2 = vertical cut (param = column), 3 = horizontal cut
(param = row); `type` 0 = absent.  The C++ code initialises `param` to the
sentinel `-1`, which is never read when `type = 0`; we use `0`. -/
structure Choice where
  type : Nat := 0
  param : Nat := 0
deriving DecidableEq, Repr

/-- A memo entry (C++ `struct Answer`): value plus choice. -/
structure Answer where
  val : Int := 0
  ch : Choice := {}
deriving DecidableEq, Repr

/-- A window of the compressed grid (C++ `struct Key`). -/
structure Key where
  xi : Nat
  xj : Nat
  yk : Nat
  yl : Nat
deriving DecidableEq, Repr

/-- The multiset of x-boundary values pushed into `xs` (C++ main, the
loop `xs.push_back(r.xl); xs.push_back(r.xr)`). -/
def boundsX (R : List Rect) : List Int :=
  R.flatMap (fun r => [r.xl, r.xr])

/-- The multiset of y-boundary values pushed into `ys`. -/
def boundsY (R : List Rect) : List Int :=
  R.flatMap (fun r => [r.yb, r.yt])

/-- `sort` followed by `unique`+`erase` (C++ coordinate compression):
a sorted, duplicate-free list of the values. -/
def compress (l : List Int) : List Int :=
  (l.insertionSort (· ≤ ·)).dedup

/-- The compressed x-axis `xs`. -/
def xsOf (R : List Rect) : List Int := compress (boundsX R)

/-- The compressed y-axis `ys`. -/
def ysOf (R : List Rect) : List Int := compress (boundsY R)

/-- `std::lower_bound`: index of the first entry `≥ t`
(C++ rectangle indexer). -/
def lowerBound (l : List Int) (t : Int) : Nat :=
  l.findIdx (fun v => decide (t ≤ v))

/-- Map one rectangle's real bounds to grid indices (C++ `RIv[i]`). -/
def toRI (xs ys : List Int) (r : Rect) : RI :=
  ⟨lowerBound xs r.xl, lowerBound xs r.xr, lowerBound ys r.yb, lowerBound ys r.yt⟩

/-- The indexed rectangle list `RIv`. -/
def RIvOf (R : List Rect) : List RI :=
  R.map (toRI (xsOf R) (ysOf R))

/-- Grid containment of a rectangle in a window
(the test on line 78 of the C++ source). -/
def containedG (q : RI) (xi xj yk yl : Nat) : Prop :=
  xi ≤ q.xl ∧ q.xr ≤ xj ∧ yk ≤ q.yb ∧ q.yt ≤ yl

instance (q : RI) (xi xj yk yl : Nat) : Decidable (containedG q xi xj yk yl) := by
  unfold containedG; infer_instance

/-- C++ `exactMatch(rid, xi, xj, yk, yl)`: the window exactly equals
rectangle `rid`'s grid bounds.  (`rid` is always in range at call sites;
out-of-range `rid` yields `false`.) -/
def exactMatch (RIv : List RI) (rid xi xj yk yl : Nat) : Bool :=
  match RIv[rid]? with
  | some q => decide (q.xl = xi) && decide (q.xr = xj) && decide (q.yb = yk) && decide (q.yt = yl)
  | none => false

/-- C++ `windowHasAnyRect`: some rectangle lies fully inside the window. -/
def windowHasAnyRect (RIv : List RI) (xi xj yk yl : Nat) : Bool :=
  RIv.any (fun q => decide (containedG q xi xj yk yl))

/-- The provisional best after the leaf scan (C++ lines 94-102): the first
rectangle exactly matching the window, or the initial `{0,{}}`. -/
def leafAns (RIv : List RI) (xi xj yk yl : Nat) : Answer :=
  match (List.range RIv.length).find? (fun rid => exactMatch RIv rid xi xj yk yl) with
  | some rid => ⟨1, ⟨1, rid⟩⟩
  | none => ⟨0, {}⟩

/-- One step of the cut loops (C++ `if (v > best.val) best = {v, ch};`):
a candidate replaces the best only when strictly greater. -/
def improve (b cand : Answer) : Answer :=
  if cand.val > b.val then cand else b

/-- Termination measure of the recursion: grid width plus grid height of
the window. -/
def measureW (xi xj yk yl : Nat) : Nat :=
  (xj - xi) + (yl - yk)

/-- Fuel-indexed embedding of the C++ `solve` (lines 85-121).  Every
recursive call is on a window of strictly smaller measure, so fuel
`measureW xi xj yk yl` suffices (`solveF_stable`). -/
def solveF (RIv : List RI) : Nat → Nat → Nat → Nat → Nat → Answer
  | 0, _, _, _, _ => ⟨0, {}⟩
  | fuel+1, xi, xj, yk, yl =>
    if xj ≤ xi ∨ yl ≤ yk then ⟨0, {}⟩
    else if windowHasAnyRect RIv xi xj yk yl then
      (List.range' (yk+1) (yl - yk - 1)).foldl
        (fun b c => improve b ⟨(solveF RIv fuel xi xj yk c).val + (solveF RIv fuel xi xj c yl).val, ⟨3, c⟩⟩)
        ((List.range' (xi+1) (xj - xi - 1)).foldl
          (fun b c => improve b ⟨(solveF RIv fuel xi c yk yl).val + (solveF RIv fuel c xj yk yl).val, ⟨2, c⟩⟩)
          (leafAns RIv xi xj yk yl))
    else ⟨0, {}⟩

/-- The C++ `solve` as a total function of the window. -/
def solve (RIv : List RI) (xi xj yk yl : Nat) : Answer :=
  solveF RIv (measureW xi xj yk yl) xi xj yk yl

/-- The set (as a list, possibly with repeats) of windows stored in the
memo table during `solve` of the given window: the window itself when
non-degenerate, plus, when not pruned, every window visited through some
cut.  Degenerate windows return before the memo write (C++ line 86). -/
def memoSetF (RIv : List RI) : Nat → Nat → Nat → Nat → Nat → List Key
  | 0, _, _, _, _ => []
  | fuel+1, xi, xj, yk, yl =>
    if xj ≤ xi ∨ yl ≤ yk then []
    else if windowHasAnyRect RIv xi xj yk yl then
      ⟨xi, xj, yk, yl⟩ ::
        ((List.range' (xi+1) (xj - xi - 1)).flatMap
          (fun c => memoSetF RIv fuel xi c yk yl ++ memoSetF RIv fuel c xj yk yl) ++
         (List.range' (yk+1) (yl - yk - 1)).flatMap
          (fun c => memoSetF RIv fuel xi xj yk c ++ memoSetF RIv fuel xi xj c yl))
    else [⟨xi, xj, yk, yl⟩]

/-- Memo key set at adequate fuel. -/
def memoSet (RIv : List RI) (xi xj yk yl : Nat) : List Key :=
  memoSetF RIv (measureW xi xj yk yl) xi xj yk yl

/-- The memo table as it stands after `solve` of the root window `(xi,
xj, yk, yl)`: an entry exists exactly for the stored windows, and holds
the answer `solve` computed for that window (each key is written exactly
once, with the value `solve` returns there). -/
def theMemo (RIv : List RI) (xi xj yk yl : Nat) : Key → Option Answer :=
  fun K => if K ∈ memoSet RIv xi xj yk yl then some (solve RIv K.xi K.xj K.yk K.yl) else none

/-- Fuel-indexed embedding of the C++ `recon` (lines 128-136), reading an
arbitrary memo table; returns the ids pushed into `chosen`, in order. -/
def reconF (memo : Key → Option Answer) : Nat → Nat → Nat → Nat → Nat → List Nat
  | 0, _, _, _, _ => []
  | fuel+1, xi, xj, yk, yl =>
    match memo ⟨xi, xj, yk, yl⟩ with
    | none => []
    | some A =>
      if A.val = 0 then []
      else if A.ch.type = 1 then [A.ch.param]
      else if A.ch.type = 2 then
        reconF memo fuel xi A.ch.param yk yl ++ reconF memo fuel A.ch.param xj yk yl
      else if A.ch.type = 3 then
        reconF memo fuel xi xj yk A.ch.param ++ reconF memo fuel xi xj A.ch.param yl
      else []

/-- The windows on which `recon` is invoked, starting from the given one. -/
def reconVisitedF (memo : Key → Option Answer) : Nat → Nat → Nat → Nat → Nat → List Key
  | 0, xi, xj, yk, yl => [⟨xi, xj, yk, yl⟩]
  | fuel+1, xi, xj, yk, yl =>
    ⟨xi, xj, yk, yl⟩ ::
      (match memo ⟨xi, xj, yk, yl⟩ with
       | none => []
       | some A =>
         if A.val = 0 then []
         else if A.ch.type = 1 then []
         else if A.ch.type = 2 then
           reconVisitedF memo fuel xi A.ch.param yk yl ++ reconVisitedF memo fuel A.ch.param xj yk yl
         else if A.ch.type = 3 then
           reconVisitedF memo fuel xi xj yk A.ch.param ++ reconVisitedF memo fuel xi xj A.ch.param yl
         else [])

/-- The whole engine run of `main` (lines 123-137): the optimal value of
the full bounding window and the reconstructed id sequence. -/
def runEngine (R : List Rect) : Int × List Nat :=
  let RIv := RIvOf R
  let X := (xsOf R).length
  let Y := (ysOf R).length
  ((solve RIv 0 (X-1) 0 (Y-1)).val,
   reconF (theMemo RIv 0 (X-1) 0 (Y-1)) (measureW 0 (X-1) 0 (Y-1)) 0 (X-1) 0 (Y-1))

/-- A valid instance: at least one rectangle, each with ordered bounds
(the program rejects everything else at ingestion). -/
def ValidRects (R : List Rect) : Prop :=
  R ≠ [] ∧ ∀ r ∈ R, r.xl < r.xr ∧ r.yb < r.yt

instance (R : List Rect) : Decidable (ValidRects R) := by
  unfold ValidRects
  infer_instance

/-- Open-set overlap of two real rectangles: their interiors intersect
(sharing only an edge is not overlap). -/
def overlapReal (r s : Rect) : Prop :=
  r.xl < s.xr ∧ s.xl < r.xr ∧ r.yb < s.yt ∧ s.yb < r.yt

/-- Grid-level separation of two indexed rectangles by an axis-aligned
line. -/
def gridSepP (p q : RI) : Prop :=
  p.xr ≤ q.xl ∨ q.xr ≤ p.xl ∨ p.yt ≤ q.yb ∨ q.yt ≤ p.yb

/-- The concrete scenario of the spec: R0=(0,0,2,2), R1=(1,1,3,3),
R2=(0,2,2,4). -/
def Rex : List Rect := [⟨0, 0, 2, 2⟩, ⟨1, 1, 3, 3⟩, ⟨0, 2, 2, 4⟩]

/-- Congruence for `foldl` when the step functions agree on the list's
elements. -/
theorem foldl_congr_fn {α β : Type} (l : List α) (f g : β → α → β) :
    ∀ b : β, (∀ acc : β, ∀ x ∈ l, f acc x = g acc x) → l.foldl f b = l.foldl g b := by
  induction l with
  | nil => intro b _; rfl
  | cons a t ih =>
    intro b h
    simp only [List.foldl_cons]
    rw [h b a (by simp)]
    exact ih _ (fun acc x hx => h acc x (by simp [hx]))

/-- The value after one improvement step is the max of the two values. -/
theorem improve_val (b a : Answer) : (improve b a).val = max b.val a.val := by
  unfold improve
  split
  · exact (max_eq_right (le_of_lt (by assumption))).symm
  · exact (max_eq_left (not_lt.mp (by assumption))).symm

/-- One improvement step returns one of its two arguments. -/
theorem improve_eq_or (b a : Answer) : improve b a = a ∨ improve b a = b := by
  unfold improve
  split
  · exact Or.inl rfl
  · exact Or.inr rfl

/-- The initial best's value never decreases along the cut loop. -/
theorem foldl_improve_init_le (l : List Answer) :
    ∀ b : Answer, b.val ≤ (l.foldl improve b).val := by
  induction l with
  | nil => intro b; exact le_refl _
  | cons a t ih =>
    intro b
    simp only [List.foldl_cons]
    exact le_trans (by rw [improve_val]; exact le_max_left _ _) (ih (improve b a))

/-- Every candidate's value is dominated by the loop's final best. -/
theorem foldl_improve_mem_le (l : List Answer) :
    ∀ b : Answer, ∀ a ∈ l, a.val ≤ (l.foldl improve b).val := by
  induction l with
  | nil => intro b a ha; cases ha
  | cons x t ih =>
    intro b a ha
    simp only [List.foldl_cons]
    rcases List.mem_cons.mp ha with h | h
    · rw [h]
      exact le_trans (by rw [improve_val]; exact le_max_right _ _)
        (foldl_improve_init_le t (improve b x))
    · exact ih (improve b x) a h

/-- The cut loop's result is the initial best or one of the candidates. -/
theorem foldl_improve_eq_or_mem (l : List Answer) :
    ∀ b : Answer, l.foldl improve b = b ∨ l.foldl improve b ∈ l := by
  induction l with
  | nil => intro b; exact Or.inl rfl
  | cons a t ih =>
    intro b
    simp only [List.foldl_cons]
    rcases ih (improve b a) with h | h
    · rcases improve_eq_or b a with h2 | h2
      · exact Or.inr (by rw [h, h2]; simp)
      · exact Or.inl (by rw [h, h2])
    · exact Or.inr (List.mem_cons_of_mem _ h)

/-- Running maximum of candidate values starting from `b`. -/
def maxValFrom (b : Int) (l : List Answer) : Int :=
  l.foldl (fun m a => max m a.val) b

/-- The running maximum dominates its starting point. -/
theorem le_maxValFrom (l : List Answer) : ∀ m : Int, m ≤ maxValFrom m l := by
  induction l with
  | nil => intro m; exact le_refl _
  | cons a t ih =>
    intro m
    unfold maxValFrom at *
    simp only [List.foldl_cons]
    exact le_trans (le_max_left _ _) (ih (max m a.val))

/-- The strict-improvement loop selects exactly the first entry of
`b :: l` (initial best first, then candidates in loop order) that attains
the overall maximum value: an equal-valued later candidate never
overrides an earlier one. -/
theorem find_first_max (l : List Answer) :
    ∀ b : Answer,
      (b :: l).find? (fun a => decide (a.val = maxValFrom b.val l)) =
        some (l.foldl improve b) := by
  induction l with
  | nil =>
    intro b
    simp [maxValFrom, List.find?]
  | cons a t ih =>
    intro b
    have hM : maxValFrom b.val (a :: t) = maxValFrom (improve b a).val t := by
      unfold maxValFrom
      simp only [List.foldl_cons]
      rw [improve_val]
    have hfold : (a :: t).foldl improve b = t.foldl improve (improve b a) := by
      simp only [List.foldl_cons]
    rw [hfold]
    by_cases h : a.val > b.val
    · have himp : improve b a = a := by unfold improve; simp [h]
      have hMa : maxValFrom b.val (a :: t) = maxValFrom a.val t := by rw [hM, himp]
      have hbM : b.val < maxValFrom a.val t :=
        lt_of_lt_of_le h (le_maxValFrom t a.val)
      have hpb : decide (b.val = maxValFrom b.val (a :: t)) = false := by
        rw [hMa]; exact decide_eq_false (by omega)
      rw [List.find?_cons]
      simp only [hpb]
      have hrec := ih (improve b a)
      rw [himp] at hrec
      rw [hMa, himp]
      exact hrec
    · have himp : improve b a = b := by unfold improve; simp [h]
      have hMb : maxValFrom b.val (a :: t) = maxValFrom b.val t := by rw [hM, himp]
      rw [himp, hMb]
      have hrec := ih b
      by_cases hb : b.val = maxValFrom b.val t
      · have hpb : decide (b.val = maxValFrom b.val t) = true := decide_eq_true hb
        rw [List.find?_cons]
        simp only [hpb]
        rw [List.find?_cons] at hrec
        simp only [hpb] at hrec
        exact hrec
      · have hpb : decide (b.val = maxValFrom b.val t) = false := decide_eq_false hb
        have hpa : decide (a.val = maxValFrom b.val t) = false := by
          apply decide_eq_false
          intro haM
          have hble : b.val ≤ maxValFrom b.val t := le_maxValFrom t _
          have hab : a.val ≤ b.val := not_lt.mp h
          omega
        rw [List.find?_cons]
        simp only [hpb]
        rw [List.find?_cons]
        simp only [hpa]
        rw [List.find?_cons] at hrec
        simp only [hpb] at hrec
        exact hrec

/-- Bounds of membership in `List.range'`. -/
theorem mem_range'_bounds {s n c : Nat} (h : c ∈ List.range' s n) :
    s ≤ c ∧ c < s + n := by
  simpa using List.mem_range'_1.mp h

/-- Any fuel at least the window measure computes the same answer: the
C++ recursion (whose calls strictly decrease the measure) is captured
exactly by `solveF` at fuel `measureW`. -/
theorem solveF_stable (RIv : List RI) :
    ∀ f g xi xj yk yl, measureW xi xj yk yl ≤ f → measureW xi xj yk yl ≤ g →
      solveF RIv f xi xj yk yl = solveF RIv g xi xj yk yl := by
  intro f
  induction f with
  | zero =>
    intro g xi xj yk yl hf hg
    have hdeg : xj ≤ xi ∨ yl ≤ yk := by unfold measureW at hf; omega
    cases g with
    | zero => rfl
    | succ g' => simp [solveF, hdeg]
  | succ f' ih =>
    intro g xi xj yk yl hf hg
    by_cases hdeg : xj ≤ xi ∨ yl ≤ yk
    · cases g with
      | zero => simp [solveF, hdeg]
      | succ g' => simp [solveF, hdeg]
    · have hlt : xi < xj ∧ yk < yl := by omega
      have hμ : 2 ≤ measureW xi xj yk yl := by unfold measureW; omega
      cases g with
      | zero => omega
      | succ g' =>
        simp only [solveF, if_neg hdeg]
        by_cases hr : windowHasAnyRect RIv xi xj yk yl = true
        case neg => rw [if_neg hr, if_neg hr]
        rw [if_pos hr, if_pos hr]
        have hV :
            (List.range' (xi+1) (xj - xi - 1)).foldl
              (fun b c => improve b ⟨(solveF RIv f' xi c yk yl).val + (solveF RIv f' c xj yk yl).val, ⟨2, c⟩⟩)
              (leafAns RIv xi xj yk yl) =
            (List.range' (xi+1) (xj - xi - 1)).foldl
              (fun b c => improve b ⟨(solveF RIv g' xi c yk yl).val + (solveF RIv g' c xj yk yl).val, ⟨2, c⟩⟩)
              (leafAns RIv xi xj yk yl) := by
          apply foldl_congr_fn
          intro acc c hc
          have hb := mem_range'_bounds hc
          rw [ih g' xi c yk yl (by unfold measureW at *; omega) (by unfold measureW at *; omega),
              ih g' c xj yk yl (by unfold measureW at *; omega) (by unfold measureW at *; omega)]
        rw [hV]
        apply foldl_congr_fn
        intro acc c hc
        have hb := mem_range'_bounds hc
        rw [ih g' xi xj yk c (by unfold measureW at *; omega) (by unfold measureW at *; omega),
            ih g' xi xj c yl (by unfold measureW at *; omega) (by unfold measureW at *; omega)]

/-- The recurrence actually satisfied by `solve`: the C++ body of
`solve` (lines 85-121) with memoization elided, since a memo entry is
only ever written with the value `solve` returns for its key. -/
theorem solve_eq (RIv : List RI) (xi xj yk yl : Nat) :
    solve RIv xi xj yk yl =
      if xj ≤ xi ∨ yl ≤ yk then ⟨0, {}⟩
      else if windowHasAnyRect RIv xi xj yk yl then
        (List.range' (yk+1) (yl - yk - 1)).foldl
          (fun b c => improve b ⟨(solve RIv xi xj yk c).val + (solve RIv xi xj c yl).val, ⟨3, c⟩⟩)
          ((List.range' (xi+1) (xj - xi - 1)).foldl
            (fun b c => improve b ⟨(solve RIv xi c yk yl).val + (solve RIv c xj yk yl).val, ⟨2, c⟩⟩)
            (leafAns RIv xi xj yk yl))
      else ⟨0, {}⟩ := by
  by_cases hdeg : xj ≤ xi ∨ yl ≤ yk
  · unfold solve
    rw [if_pos hdeg]
    cases hμ : measureW xi xj yk yl with
    | zero => simp [solveF]
    | succ m => simp [solveF, hdeg]
  · rw [if_neg hdeg]
    have hμ : 2 ≤ measureW xi xj yk yl := by unfold measureW; omega
    obtain ⟨m, hm⟩ : ∃ m, measureW xi xj yk yl = m + 1 := ⟨measureW xi xj yk yl - 1, by omega⟩
    have hsolve : solve RIv xi xj yk yl = solveF RIv (m+1) xi xj yk yl := by
      unfold solve
      rw [hm]
    rw [hsolve]
    simp only [solveF, if_neg hdeg]
    by_cases hr : windowHasAnyRect RIv xi xj yk yl = true
    · rw [if_pos hr, if_pos hr]
      have hV :
          (List.range' (xi+1) (xj - xi - 1)).foldl
            (fun b c => improve b ⟨(solveF RIv m xi c yk yl).val + (solveF RIv m c xj yk yl).val, ⟨2, c⟩⟩)
            (leafAns RIv xi xj yk yl) =
          (List.range' (xi+1) (xj - xi - 1)).foldl
            (fun b c => improve b ⟨(solve RIv xi c yk yl).val + (solve RIv c xj yk yl).val, ⟨2, c⟩⟩)
            (leafAns RIv xi xj yk yl) := by
        apply foldl_congr_fn
        intro acc c hc
        have hb := mem_range'_bounds hc
        unfold solve
        rw [solveF_stable RIv m (measureW xi c yk yl) xi c yk yl
              (by unfold measureW at *; omega) (le_refl _),
            solveF_stable RIv m (measureW c xj yk yl) c xj yk yl
              (by unfold measureW at *; omega) (le_refl _)]
      rw [hV]
      apply foldl_congr_fn
      intro acc c hc
      have hb := mem_range'_bounds hc
      unfold solve
      rw [solveF_stable RIv m (measureW xi xj yk c) xi xj yk c
            (by unfold measureW at *; omega) (le_refl _),
          solveF_stable RIv m (measureW xi xj c yl) xi xj c yl
            (by unfold measureW at *; omega) (le_refl _)]
    · rw [if_neg hr, if_neg hr]

/-- The vertical-cut candidates of a window, in loop order
(C++ lines 105-110). -/
def vertCands (RIv : List RI) (xi xj yk yl : Nat) : List Answer :=
  (List.range' (xi+1) (xj - xi - 1)).map
    (fun c => ⟨(solve RIv xi c yk yl).val + (solve RIv c xj yk yl).val, ⟨2, c⟩⟩)

/-- The horizontal-cut candidates of a window, in loop order
(C++ lines 113-118). -/
def horizCands (RIv : List RI) (xi xj yk yl : Nat) : List Answer :=
  (List.range' (yk+1) (yl - yk - 1)).map
    (fun c => ⟨(solve RIv xi xj yk c).val + (solve RIv xi xj c yl).val, ⟨3, c⟩⟩)

/-- The full candidate enumeration of a window in the order the C++ code
examines it: the leaf scan's provisional best, then vertical cuts in
increasing column order, then horizontal cuts in increasing row order. -/
def candList (RIv : List RI) (xi xj yk yl : Nat) : List Answer :=
  leafAns RIv xi xj yk yl :: (vertCands RIv xi xj yk yl ++ horizCands RIv xi xj yk yl)

/-- On a non-degenerate, non-pruned window, `solve` is the
strict-improvement fold over the cut candidates starting from the leaf
scan's provisional best. -/
theorem solve_fold (RIv : List RI) (xi xj yk yl : Nat)
    (h1 : ¬(xj ≤ xi ∨ yl ≤ yk)) (hr : windowHasAnyRect RIv xi xj yk yl = true) :
    solve RIv xi xj yk yl =
      (vertCands RIv xi xj yk yl ++ horizCands RIv xi xj yk yl).foldl improve
        (leafAns RIv xi xj yk yl) := by
  rw [solve_eq, if_neg h1, if_pos hr]
  rw [List.foldl_append]
  unfold vertCands horizCands
  rw [List.foldl_map, List.foldl_map]

/-- The leaf scan returns either the initial `{0,{}}` or the first
exactly-matching rectangle. -/
theorem leafAns_cases (RIv : List RI) (xi xj yk yl : Nat) :
    leafAns RIv xi xj yk yl = ⟨0, {}⟩ ∨
    ∃ rid, rid < RIv.length ∧ exactMatch RIv rid xi xj yk yl = true ∧
      leafAns RIv xi xj yk yl = ⟨1, ⟨1, rid⟩⟩ := by
  unfold leafAns
  cases hf : (List.range RIv.length).find? (fun rid => exactMatch RIv rid xi xj yk yl) with
  | none => exact Or.inl rfl
  | some rid =>
    right
    refine ⟨rid, ?_, ?_, rfl⟩
    · have := List.mem_of_find?_eq_some hf
      simpa using this
    · simpa using List.find?_some hf

/-- Initial-best monotonicity for the inline cut loops of `solveF`. -/
theorem foldl_improveF_init_le {A : Type} (F : A → Answer) (l : List A) :
    ∀ b : Answer, b.val ≤ (l.foldl (fun acc c => improve acc (F c)) b).val := by
  induction l with
  | nil => intro b; exact le_refl _
  | cons a t ih =>
    intro b
    simp only [List.foldl_cons]
    exact le_trans (by rw [improve_val]; exact le_max_left _ _) (ih (improve b (F a)))

/-- Values computed by the engine are never negative. -/
theorem solveF_val_nonneg (RIv : List RI) :
    ∀ f xi xj yk yl, 0 ≤ (solveF RIv f xi xj yk yl).val := by
  intro f
  induction f with
  | zero => intro xi xj yk yl; simp [solveF]
  | succ f' ih =>
    intro xi xj yk yl
    simp only [solveF]
    split
    · simp
    · split
      · have hleaf : 0 ≤ (leafAns RIv xi xj yk yl).val := by
          rcases leafAns_cases RIv xi xj yk yl with h | ⟨rid, _, _, h⟩ <;> simp [h]
        exact le_trans hleaf
          (le_trans (foldl_improveF_init_le _ _ _) (foldl_improveF_init_le _ _ _))
      · simp

/-- `solve` values are never negative. -/
theorem solve_val_nonneg (RIv : List RI) (xi xj yk yl : Nat) :
    0 ≤ (solve RIv xi xj yk yl).val :=
  solveF_val_nonneg RIv _ xi xj yk yl

/-- A pruned (or degenerate) window: `solve` yields value 0 with an
absent choice. -/
theorem solve_pruned (RIv : List RI) (xi xj yk yl : Nat)
    (hr : windowHasAnyRect RIv xi xj yk yl = false) :
    solve RIv xi xj yk yl = ⟨0, {}⟩ := by
  rw [solve_eq]
  by_cases h1 : xj ≤ xi ∨ yl ≤ yk
  · rw [if_pos h1]
  · rw [if_neg h1, if_neg (by simp [hr])]

/-- The stored answer of any window is `{0,{}}`, the first
exactly-matching leaf, or a cut at some strictly interior line whose
value is the sum of the sub-windows' values. -/
theorem solve_cases (RIv : List RI) (xi xj yk yl : Nat) :
    solve RIv xi xj yk yl = ⟨0, {}⟩ ∨
    (∃ rid, rid < RIv.length ∧ exactMatch RIv rid xi xj yk yl = true ∧
       solve RIv xi xj yk yl = ⟨1, ⟨1, rid⟩⟩) ∨
    (∃ c, xi < c ∧ c < xj ∧
       solve RIv xi xj yk yl =
         ⟨(solve RIv xi c yk yl).val + (solve RIv c xj yk yl).val, ⟨2, c⟩⟩) ∨
    (∃ c, yk < c ∧ c < yl ∧
       solve RIv xi xj yk yl =
         ⟨(solve RIv xi xj yk c).val + (solve RIv xi xj c yl).val, ⟨3, c⟩⟩) := by
  by_cases h1 : xj ≤ xi ∨ yl ≤ yk
  · left
    rw [solve_eq, if_pos h1]
  by_cases hr : windowHasAnyRect RIv xi xj yk yl = true
  · have hfold := solve_fold RIv xi xj yk yl h1 hr
    have hlt : xi < xj ∧ yk < yl := by omega
    rcases foldl_improve_eq_or_mem
        (vertCands RIv xi xj yk yl ++ horizCands RIv xi xj yk yl)
        (leafAns RIv xi xj yk yl) with h | h
    · rw [h] at hfold
      rcases leafAns_cases RIv xi xj yk yl with hl | ⟨rid, hrid, hex, hl⟩
      · left
        rw [hfold, hl]
      · right; left
        exact ⟨rid, hrid, hex, by rw [hfold, hl]⟩
    · rw [← hfold] at h
      rcases List.mem_append.mp h with hv | hh
      · unfold vertCands at hv
        rcases List.mem_map.mp hv with ⟨c, hc, hceq⟩
        have hb := mem_range'_bounds hc
        right; right; left
        exact ⟨c, by omega, by omega, hceq.symm⟩
      · unfold horizCands at hh
        rcases List.mem_map.mp hh with ⟨c, hc, hceq⟩
        have hb := mem_range'_bounds hc
        right; right; right
        exact ⟨c, by omega, by omega, hceq.symm⟩
  · left
    rw [solve_eq, if_neg h1, if_neg hr]

/-- A nonzero stored value forces a non-degenerate, non-pruned window. -/
theorem solve_ne_zero_window (RIv : List RI) (xi xj yk yl : Nat)
    (h : (solve RIv xi xj yk yl).val ≠ 0) :
    xi < xj ∧ yk < yl ∧ windowHasAnyRect RIv xi xj yk yl = true := by
  by_cases h1 : xj ≤ xi ∨ yl ≤ yk
  · exfalso
    apply h
    rw [solve_eq, if_pos h1]
  by_cases hr : windowHasAnyRect RIv xi xj yk yl = true
  · exact ⟨by omega, by omega, hr⟩
  · exfalso
    apply h
    rw [solve_pruned RIv xi xj yk yl (by simpa using hr)]

/-- Unfolding of the stored-window set on a non-degenerate, non-pruned
window. -/
theorem memoSetF_succ_pos (RIv : List RI) (f xi xj yk yl : Nat)
    (h1 : ¬(xj ≤ xi ∨ yl ≤ yk)) (hr : windowHasAnyRect RIv xi xj yk yl = true) :
    memoSetF RIv (f+1) xi xj yk yl =
      ⟨xi, xj, yk, yl⟩ ::
        ((List.range' (xi+1) (xj - xi - 1)).flatMap
          (fun c => memoSetF RIv f xi c yk yl ++ memoSetF RIv f c xj yk yl) ++
         (List.range' (yk+1) (yl - yk - 1)).flatMap
          (fun c => memoSetF RIv f xi xj yk c ++ memoSetF RIv f xi xj c yl)) := by
  simp only [memoSetF]
  rw [if_neg h1, if_pos hr]

/-- A non-degenerate window is stored during its own `solve`. -/
theorem self_mem_memoSetF (RIv : List RI) (f xi xj yk yl : Nat)
    (hf : measureW xi xj yk yl ≤ f) (hx : xi < xj) (hy : yk < yl) :
    (⟨xi, xj, yk, yl⟩ : Key) ∈ memoSetF RIv f xi xj yk yl := by
  have hμ : 2 ≤ measureW xi xj yk yl := by unfold measureW; omega
  obtain ⟨m, rfl⟩ : ∃ m, f = m + 1 := ⟨f - 1, by omega⟩
  simp only [memoSetF]
  rw [if_neg (by omega)]
  by_cases hr : windowHasAnyRect RIv xi xj yk yl = true
  · rw [if_pos hr]
    exact List.mem_cons_self _ _
  · rw [if_neg hr]
    simp

/-- The stored set of a vertical sub-window injects into the parent's
stored set. -/
theorem memoSetF_vert_subset (RIv : List RI) (f xi xj yk yl c : Nat)
    (h1 : ¬(xj ≤ xi ∨ yl ≤ yk)) (hr : windowHasAnyRect RIv xi xj yk yl = true)
    (hc1 : xi < c) (hc2 : c < xj) :
    ∀ J, (J ∈ memoSetF RIv f xi c yk yl ∨ J ∈ memoSetF RIv f c xj yk yl) →
      J ∈ memoSetF RIv (f+1) xi xj yk yl := by
  intro J hJ
  rw [memoSetF_succ_pos RIv f xi xj yk yl h1 hr]
  apply List.mem_cons_of_mem
  apply List.mem_append_left
  apply List.mem_flatMap.mpr
  exact ⟨c, List.mem_range'_1.mpr ⟨by omega, by omega⟩, List.mem_append.mpr hJ⟩

/-- The stored set of a horizontal sub-window injects into the parent's
stored set. -/
theorem memoSetF_horiz_subset (RIv : List RI) (f xi xj yk yl c : Nat)
    (h1 : ¬(xj ≤ xi ∨ yl ≤ yk)) (hr : windowHasAnyRect RIv xi xj yk yl = true)
    (hc1 : yk < c) (hc2 : c < yl) :
    ∀ J, (J ∈ memoSetF RIv f xi xj yk c ∨ J ∈ memoSetF RIv f xi xj c yl) →
      J ∈ memoSetF RIv (f+1) xi xj yk yl := by
  intro J hJ
  rw [memoSetF_succ_pos RIv f xi xj yk yl h1 hr]
  apply List.mem_cons_of_mem
  apply List.mem_append_right
  apply List.mem_flatMap.mpr
  exact ⟨c, List.mem_range'_1.mpr ⟨by omega, by omega⟩, List.mem_append.mpr hJ⟩

/-- Closure of the stored-window set: every stored window is
non-degenerate, and when it is not pruned, all sub-windows of all of its
interior cuts are stored as well (the cut loops of `solve` recurse into
every one of them before the entry is written). -/
theorem memoSetF_closed (RIv : List RI) :
    ∀ f xi xj yk yl, measureW xi xj yk yl ≤ f →
      ∀ K ∈ memoSetF RIv f xi xj yk yl,
        (K.xi < K.xj ∧ K.yk < K.yl) ∧
        (windowHasAnyRect RIv K.xi K.xj K.yk K.yl = true →
          (∀ c, K.xi < c → c < K.xj →
            (⟨K.xi, c, K.yk, K.yl⟩ : Key) ∈ memoSetF RIv f xi xj yk yl ∧
            (⟨c, K.xj, K.yk, K.yl⟩ : Key) ∈ memoSetF RIv f xi xj yk yl) ∧
          (∀ c, K.yk < c → c < K.yl →
            (⟨K.xi, K.xj, K.yk, c⟩ : Key) ∈ memoSetF RIv f xi xj yk yl ∧
            (⟨K.xi, K.xj, c, K.yl⟩ : Key) ∈ memoSetF RIv f xi xj yk yl)) := by
  intro f
  induction f with
  | zero =>
    intro xi xj yk yl hf K hK
    simp [memoSetF] at hK
  | succ f' ih =>
    intro xi xj yk yl hf K hK
    by_cases h1 : xj ≤ xi ∨ yl ≤ yk
    · rw [show memoSetF RIv (f'+1) xi xj yk yl = [] by simp [memoSetF, h1]] at hK
      simp at hK
    by_cases hr : windowHasAnyRect RIv xi xj yk yl = true
    · rw [memoSetF_succ_pos RIv f' xi xj yk yl h1 hr] at hK
      rcases List.mem_cons.mp hK with hKW | hKrest
      · subst hKW
        dsimp only
        refine ⟨⟨by omega, by omega⟩, fun _ => ⟨?_, ?_⟩⟩
        · intro c hc1 hc2
          constructor
          · exact memoSetF_vert_subset RIv f' xi xj yk yl c h1 hr hc1 hc2 _
              (Or.inl (self_mem_memoSetF RIv f' xi c yk yl
                (by unfold measureW at *; omega) hc1 (by omega)))
          · exact memoSetF_vert_subset RIv f' xi xj yk yl c h1 hr hc1 hc2 _
              (Or.inr (self_mem_memoSetF RIv f' c xj yk yl
                (by unfold measureW at *; omega) hc2 (by omega)))
        · intro c hc1 hc2
          constructor
          · exact memoSetF_horiz_subset RIv f' xi xj yk yl c h1 hr hc1 hc2 _
              (Or.inl (self_mem_memoSetF RIv f' xi xj yk c
                (by unfold measureW at *; omega) (by omega) hc1))
          · exact memoSetF_horiz_subset RIv f' xi xj yk yl c h1 hr hc1 hc2 _
              (Or.inr (self_mem_memoSetF RIv f' xi xj c yl
                (by unfold measureW at *; omega) (by omega) hc2))
      · rcases List.mem_append.mp hKrest with hV | hH
        · rcases List.mem_flatMap.mp hV with ⟨c, hc, hKsub⟩
          have hb := mem_range'_bounds hc
          have hsub := memoSetF_vert_subset RIv f' xi xj yk yl c h1 hr
            (by omega) (by omega)
          rcases List.mem_append.mp hKsub with hKL | hKR
          · have hrec := ih xi c yk yl (by unfold measureW at *; omega) K hKL
            refine ⟨hrec.1, fun hKr => ?_⟩
            have h2 := hrec.2 hKr
            exact ⟨fun d hd1 hd2 => ⟨hsub _ (Or.inl (h2.1 d hd1 hd2).1),
                                     hsub _ (Or.inl (h2.1 d hd1 hd2).2)⟩,
                   fun d hd1 hd2 => ⟨hsub _ (Or.inl (h2.2 d hd1 hd2).1),
                                     hsub _ (Or.inl (h2.2 d hd1 hd2).2)⟩⟩
          · have hrec := ih c xj yk yl (by unfold measureW at *; omega) K hKR
            refine ⟨hrec.1, fun hKr => ?_⟩
            have h2 := hrec.2 hKr
            exact ⟨fun d hd1 hd2 => ⟨hsub _ (Or.inr (h2.1 d hd1 hd2).1),
                                     hsub _ (Or.inr (h2.1 d hd1 hd2).2)⟩,
                   fun d hd1 hd2 => ⟨hsub _ (Or.inr (h2.2 d hd1 hd2).1),
                                     hsub _ (Or.inr (h2.2 d hd1 hd2).2)⟩⟩
        · rcases List.mem_flatMap.mp hH with ⟨c, hc, hKsub⟩
          have hb := mem_range'_bounds hc
          have hsub := memoSetF_horiz_subset RIv f' xi xj yk yl c h1 hr
            (by omega) (by omega)
          rcases List.mem_append.mp hKsub with hKL | hKR
          · have hrec := ih xi xj yk c (by unfold measureW at *; omega) K hKL
            refine ⟨hrec.1, fun hKr => ?_⟩
            have h2 := hrec.2 hKr
            exact ⟨fun d hd1 hd2 => ⟨hsub _ (Or.inl (h2.1 d hd1 hd2).1),
                                     hsub _ (Or.inl (h2.1 d hd1 hd2).2)⟩,
                   fun d hd1 hd2 => ⟨hsub _ (Or.inl (h2.2 d hd1 hd2).1),
                                     hsub _ (Or.inl (h2.2 d hd1 hd2).2)⟩⟩
          · have hrec := ih xi xj c yl (by unfold measureW at *; omega) K hKR
            refine ⟨hrec.1, fun hKr => ?_⟩
            have h2 := hrec.2 hKr
            exact ⟨fun d hd1 hd2 => ⟨hsub _ (Or.inr (h2.1 d hd1 hd2).1),
                                     hsub _ (Or.inr (h2.1 d hd1 hd2).2)⟩,
                   fun d hd1 hd2 => ⟨hsub _ (Or.inr (h2.2 d hd1 hd2).1),
                                     hsub _ (Or.inr (h2.2 d hd1 hd2).2)⟩⟩
    · rw [show memoSetF RIv (f'+1) xi xj yk yl = [⟨xi, xj, yk, yl⟩]
          by simp only [memoSetF]; rw [if_neg h1, if_neg hr]] at hK
      rcases List.mem_singleton.mp hK with hKW
      subst hKW
      dsimp only
      refine ⟨⟨by omega, by omega⟩, fun hKr => absurd hKr hr⟩

/-- A stored window's lookup in the memo succeeds with the answer
`solve` computed for it. -/
theorem theMemo_mem (RIv : List RI) (rxi rxj ryk ryl xi xj yk yl : Nat)
    (hK : (⟨xi, xj, yk, yl⟩ : Key) ∈ memoSet RIv rxi rxj ryk ryl) :
    theMemo RIv rxi rxj ryk ryl ⟨xi, xj, yk, yl⟩ = some (solve RIv xi xj yk yl) := by
  unfold theMemo
  rw [if_pos hK]

/-- A stored window is non-degenerate. -/
theorem mem_memoSet_nondeg (RIv : List RI) (rxi rxj ryk ryl xi xj yk yl : Nat)
    (hK : (⟨xi, xj, yk, yl⟩ : Key) ∈ memoSet RIv rxi rxj ryk ryl) :
    xi < xj ∧ yk < yl := by
  have h := (memoSetF_closed RIv _ rxi rxj ryk ryl (le_refl _) _ hK).1
  exact h

/-- Unpacking a successful exact-match test. -/
theorem exactMatch_spec (RIv : List RI) (rid xi xj yk yl : Nat)
    (h : exactMatch RIv rid xi xj yk yl = true) :
    ∃ q, RIv[rid]? = some q ∧ q.xl = xi ∧ q.xr = xj ∧ q.yb = yk ∧ q.yt = yl := by
  unfold exactMatch at h
  cases hq : RIv[rid]? with
  | none => rw [hq] at h; simp at h
  | some q =>
    rw [hq] at h
    simp only [Bool.and_eq_true, decide_eq_true_eq] at h
    exact ⟨q, rfl, h.1.1.1, h.1.1.2, h.1.2, h.2⟩

/-- Reconstruction of any stored window yields exactly as many ids as
the window's stored value. -/
theorem reconF_length (RIv : List RI) (rxi rxj ryk ryl : Nat) :
    ∀ f xi xj yk yl, measureW xi xj yk yl ≤ f →
      (⟨xi, xj, yk, yl⟩ : Key) ∈ memoSet RIv rxi rxj ryk ryl →
      ((reconF (theMemo RIv rxi rxj ryk ryl) f xi xj yk yl).length : Int) =
        (solve RIv xi xj yk yl).val := by
  intro f
  induction f with
  | zero =>
    intro xi xj yk yl hf hK
    have h := mem_memoSet_nondeg RIv rxi rxj ryk ryl xi xj yk yl hK
    unfold measureW at hf
    omega
  | succ f' ih =>
    intro xi xj yk yl hf hK
    have hmm := theMemo_mem RIv rxi rxj ryk ryl xi xj yk yl hK
    simp only [reconF, hmm]
    by_cases hv : (solve RIv xi xj yk yl).val = 0
    · rw [if_pos hv, hv]
      simp
    · rw [if_neg hv]
      have hwin := solve_ne_zero_window RIv xi xj yk yl hv
      rcases solve_cases RIv xi xj yk yl with h0 | ⟨rid, hrid, hex, hleaf⟩ |
        ⟨c, hc1, hc2, hcut⟩ | ⟨c, hc1, hc2, hcut⟩
      · rw [h0] at hv
        simp at hv
      · rw [hleaf]
        simp
      · have hks := (memoSetF_closed RIv _ rxi rxj ryk ryl (le_refl _) _ hK).2
        have hcl := (hks hwin.2.2).1 c hc1 hc2
        dsimp only at hcl
        rw [hcut]
        simp only [show ((⟨_, ⟨2, c⟩⟩ : Answer)).ch.type = 2 from rfl]
        norm_num
        rw [ih xi c yk yl (by unfold measureW at *; omega) hcl.1,
            ih c xj yk yl (by unfold measureW at *; omega) hcl.2]
      · have hks := (memoSetF_closed RIv _ rxi rxj ryk ryl (le_refl _) _ hK).2
        have hcl := (hks hwin.2.2).2 c hc1 hc2
        dsimp only at hcl
        rw [hcut]
        simp only [show ((⟨_, ⟨3, c⟩⟩ : Answer)).ch.type = 3 from rfl]
        norm_num
        rw [ih xi xj yk c (by unfold measureW at *; omega) hcl.1,
            ih xi xj c yl (by unfold measureW at *; omega) hcl.2]

/-- Every window visited by reconstruction from a stored window is
itself stored (the memo lookup can never fail along the walk). -/
theorem reconVisitedF_memoized (RIv : List RI) (rxi rxj ryk ryl : Nat) :
    ∀ f xi xj yk yl, measureW xi xj yk yl ≤ f →
      (⟨xi, xj, yk, yl⟩ : Key) ∈ memoSet RIv rxi rxj ryk ryl →
      ∀ K ∈ reconVisitedF (theMemo RIv rxi rxj ryk ryl) f xi xj yk yl,
        K ∈ memoSet RIv rxi rxj ryk ryl := by
  intro f
  induction f with
  | zero =>
    intro xi xj yk yl hf hK
    have h := mem_memoSet_nondeg RIv rxi rxj ryk ryl xi xj yk yl hK
    unfold measureW at hf
    omega
  | succ f' ih =>
    intro xi xj yk yl hf hK K hKv
    have hmm := theMemo_mem RIv rxi rxj ryk ryl xi xj yk yl hK
    simp only [reconVisitedF, hmm] at hKv
    rcases List.mem_cons.mp hKv with hKW | hKrest
    · subst hKW
      exact hK
    · by_cases hv : (solve RIv xi xj yk yl).val = 0
      · rw [if_pos hv] at hKrest
        simp at hKrest
      · rw [if_neg hv] at hKrest
        have hwin := solve_ne_zero_window RIv xi xj yk yl hv
        rcases solve_cases RIv xi xj yk yl with h0 | ⟨rid, hrid, hex, hleaf⟩ |
          ⟨c, hc1, hc2, hcut⟩ | ⟨c, hc1, hc2, hcut⟩
        · rw [h0] at hv
          simp at hv
        · rw [hleaf] at hKrest
          simp at hKrest
        · have hks := (memoSetF_closed RIv _ rxi rxj ryk ryl (le_refl _) _ hK).2
          have hcl := (hks hwin.2.2).1 c hc1 hc2
          dsimp only at hcl
          rw [hcut] at hKrest
          simp only [show ((⟨_, ⟨2, c⟩⟩ : Answer)).ch.type = 2 from rfl] at hKrest
          norm_num at hKrest
          rcases hKrest with hL | hR
          · exact ih xi c yk yl (by unfold measureW at *; omega) hcl.1 K hL
          · exact ih c xj yk yl (by unfold measureW at *; omega) hcl.2 K hR
        · have hks := (memoSetF_closed RIv _ rxi rxj ryk ryl (le_refl _) _ hK).2
          have hcl := (hks hwin.2.2).2 c hc1 hc2
          dsimp only at hcl
          rw [hcut] at hKrest
          simp only [show ((⟨_, ⟨3, c⟩⟩ : Answer)).ch.type = 3 from rfl] at hKrest
          norm_num at hKrest
          rcases hKrest with hL | hR
          · exact ih xi xj yk c (by unfold measureW at *; omega) hcl.1 K hL
          · exact ih xi xj c yl (by unfold measureW at *; omega) hcl.2 K hR

/-- The indexed rectangle named by id `a` (out-of-range ids, which never
occur, default to the zero rectangle). -/
def riAt (RIv : List RI) (a : Nat) : RI := RIv.getD a ⟨0, 0, 0, 0⟩

/-- `riAt` agrees with a successful indexed lookup. -/
theorem riAt_eq (RIv : List RI) (a : Nat) (q : RI) (h : RIv[a]? = some q) :
    riAt RIv a = q := by
  unfold riAt
  rw [List.getD_eq_getElem?_getD, h]
  rfl

/-- Soundness of reconstruction on any stored window: every returned id
is in range, names a rectangle contained in the window, and stems from a
stored leaf choice whose window exactly equals the rectangle's grid
bounds; and the returned ids are pairwise grid-separated by some cut
line. -/
theorem reconF_sound (RIv : List RI) (rxi rxj ryk ryl : Nat) :
    ∀ f xi xj yk yl, measureW xi xj yk yl ≤ f →
      (⟨xi, xj, yk, yl⟩ : Key) ∈ memoSet RIv rxi rxj ryk ryl →
      (∀ a ∈ reconF (theMemo RIv rxi rxj ryk ryl) f xi xj yk yl,
        a < RIv.length ∧ containedG (riAt RIv a) xi xj yk yl ∧
        ∃ K ∈ memoSet RIv rxi rxj ryk ryl,
          solve RIv K.xi K.xj K.yk K.yl = ⟨1, ⟨1, a⟩⟩ ∧
          exactMatch RIv a K.xi K.xj K.yk K.yl = true) ∧
      (reconF (theMemo RIv rxi rxj ryk ryl) f xi xj yk yl).Pairwise
        (fun a b => gridSepP (riAt RIv a) (riAt RIv b)) := by
  intro f
  induction f with
  | zero =>
    intro xi xj yk yl hf hK
    have h := mem_memoSet_nondeg RIv rxi rxj ryk ryl xi xj yk yl hK
    unfold measureW at hf
    omega
  | succ f' ih =>
    intro xi xj yk yl hf hK
    have hmm := theMemo_mem RIv rxi rxj ryk ryl xi xj yk yl hK
    simp only [reconF, hmm]
    by_cases hv : (solve RIv xi xj yk yl).val = 0
    · rw [if_pos hv]
      constructor
      · intro a ha
        simp at ha
      · simp
    · have hwin := solve_ne_zero_window RIv xi xj yk yl hv
      rcases solve_cases RIv xi xj yk yl with h0 | ⟨rid, hrid, hex, hleaf⟩ |
        ⟨c, hc1, hc2, hcut⟩ | ⟨c, hc1, hc2, hcut⟩
      · rw [h0] at hv
        simp at hv
      · rw [hleaf] at hv ⊢
        rw [if_neg hv]
        dsimp only
        rw [if_pos rfl]
        rcases exactMatch_spec RIv rid xi xj yk yl hex with ⟨q, hq, e1, e2, e3, e4⟩
        have hra := riAt_eq RIv rid q hq
        constructor
        · intro a ha
          have ha2 : a = rid := by simpa using ha
          subst ha2
          refine ⟨hrid, ?_, ⟨xi, xj, yk, yl⟩, hK, hleaf, hex⟩
          rw [hra]
          exact ⟨by omega, by omega, by omega, by omega⟩
        · simp
      · have hks := (memoSetF_closed RIv _ rxi rxj ryk ryl (le_refl _) _ hK).2
        have hcl := (hks hwin.2.2).1 c hc1 hc2
        dsimp only at hcl
        rw [hcut] at hv ⊢
        rw [if_neg hv]
        dsimp only
        rw [if_neg (by norm_num), if_pos rfl]
        have ihL := ih xi c yk yl (by unfold measureW at *; omega) hcl.1
        have ihR := ih c xj yk yl (by unfold measureW at *; omega) hcl.2
        constructor
        · intro a ha
          rcases List.mem_append.mp ha with hL | hR
          · rcases (ihL.1 a hL) with ⟨h1, h2, h3⟩
            exact ⟨h1, ⟨h2.1, by have := h2.2.1; omega, h2.2.2⟩, h3⟩
          · rcases (ihR.1 a hR) with ⟨h1, h2, h3⟩
            exact ⟨h1, ⟨by have := h2.1; omega, h2.2.1, h2.2.2⟩, h3⟩
        · refine List.pairwise_append.mpr ⟨ihL.2, ihR.2, ?_⟩
          intro a hL b hR
          have haC : (riAt RIv a).xr ≤ c := (ihL.1 a hL).2.1.2.1
          have hbC : c ≤ (riAt RIv b).xl := (ihR.1 b hR).2.1.1
          exact Or.inl (by omega)
      · have hks := (memoSetF_closed RIv _ rxi rxj ryk ryl (le_refl _) _ hK).2
        have hcl := (hks hwin.2.2).2 c hc1 hc2
        dsimp only at hcl
        rw [hcut] at hv ⊢
        rw [if_neg hv]
        dsimp only
        rw [if_neg (by norm_num), if_neg (by norm_num), if_pos rfl]
        have ihL := ih xi xj yk c (by unfold measureW at *; omega) hcl.1
        have ihR := ih xi xj c yl (by unfold measureW at *; omega) hcl.2
        constructor
        · intro a ha
          rcases List.mem_append.mp ha with hL | hR
          · rcases (ihL.1 a hL) with ⟨h1, h2, h3⟩
            exact ⟨h1, ⟨h2.1, h2.2.1, h2.2.2.1, by have := h2.2.2.2; omega⟩, h3⟩
          · rcases (ihR.1 a hR) with ⟨h1, h2, h3⟩
            exact ⟨h1, ⟨h2.1, h2.2.1, by have := h2.2.2.1; omega, h2.2.2.2⟩, h3⟩
        · refine List.pairwise_append.mpr ⟨ihL.2, ihR.2, ?_⟩
          intro a hL b hR
          have haC : (riAt RIv a).yt ≤ c := (ihL.1 a hL).2.1.2.2.2
          have hbC : c ≤ (riAt RIv b).yb := (ihR.1 b hR).2.1.2.2.1
          exact Or.inr (Or.inr (Or.inl (by omega)))

/-- Filter-length monotonicity under pointwise implication. -/
theorem length_filter_mono {A : Type} (l : List A) (p q : A → Bool)
    (h : ∀ a ∈ l, p a = true → q a = true) :
    (l.filter p).length ≤ (l.filter q).length := by
  induction l with
  | nil => simp
  | cons a t ih =>
    have ht : ∀ x ∈ t, p x = true → q x = true := fun x hx => h x (by simp [hx])
    simp only [List.filter_cons]
    by_cases hp : p a = true
    · rw [if_pos hp, if_pos (h a (by simp) hp)]
      simpa using ih ht
    · rw [if_neg hp]
      by_cases hq : q a = true
      · rw [if_pos hq]
        exact le_trans (ih ht) (by simp)
      · rw [if_neg hq]
        exact ih ht

/-- Two disjoint sub-filters together never exceed a common super-filter. -/
theorem length_filter_disjoint_add {A : Type} (l : List A) (p q r : A → Bool)
    (hpr : ∀ a ∈ l, p a = true → r a = true)
    (hqr : ∀ a ∈ l, q a = true → r a = true)
    (hdisj : ∀ a ∈ l, ¬(p a = true ∧ q a = true)) :
    (l.filter p).length + (l.filter q).length ≤ (l.filter r).length := by
  induction l with
  | nil => simp
  | cons a t ih =>
    have hpr' : ∀ x ∈ t, p x = true → r x = true := fun x hx => hpr x (by simp [hx])
    have hqr' : ∀ x ∈ t, q x = true → r x = true := fun x hx => hqr x (by simp [hx])
    have hdisj' : ∀ x ∈ t, ¬(p x = true ∧ q x = true) := fun x hx => hdisj x (by simp [hx])
    have it := ih hpr' hqr' hdisj'
    simp only [List.filter_cons]
    by_cases hp : p a = true
    · have hr : r a = true := hpr a (by simp) hp
      have hq : ¬ q a = true := fun hq => hdisj a (by simp) ⟨hp, hq⟩
      rw [if_pos hp, if_neg hq, if_pos hr]
      simp only [List.length_cons]
      omega
    · rw [if_neg hp]
      by_cases hq : q a = true
      · have hr : r a = true := hqr a (by simp) hq
        rw [if_pos hq, if_pos hr]
        simp only [List.length_cons]
        omega
      · rw [if_neg hq]
        by_cases hr : r a = true
        · rw [if_pos hr]
          simp only [List.length_cons]
          omega
        · rw [if_neg hr]
          exact it

/-- The number of rectangles fully contained in a window. -/
def countIn (RIv : List RI) (xi xj yk yl : Nat) : Nat :=
  (RIv.filter (fun q => decide (containedG q xi xj yk yl))).length

/-- A window's stored value never exceeds the number of rectangles fully
contained in it: a leaf accounts for one contained rectangle, and a cut's
two sub-windows contain disjoint sets of rectangles. -/
theorem solve_val_le_countIn (RIv : List RI)
    (hval : ∀ q ∈ RIv, q.xl < q.xr ∧ q.yb < q.yt) :
    ∀ m xi xj yk yl, measureW xi xj yk yl = m →
      (solve RIv xi xj yk yl).val ≤ (countIn RIv xi xj yk yl : Int) := by
  intro m
  induction m using Nat.strong_induction_on with
  | _ m ihm =>
    intro xi xj yk yl hm
    rcases solve_cases RIv xi xj yk yl with h0 | ⟨rid, hrid, hex, hleaf⟩ |
      ⟨c, hc1, hc2, hcut⟩ | ⟨c, hc1, hc2, hcut⟩
    · rw [h0]
      show (0 : Int) ≤ (countIn RIv xi xj yk yl : Int)
      exact_mod_cast Nat.zero_le _
    · rw [hleaf]
      rcases exactMatch_spec RIv rid xi xj yk yl hex with ⟨q, hq, e1, e2, e3, e4⟩
      have hmem : q ∈ RIv := List.getElem?_mem hq
      have hqf : q ∈ RIv.filter (fun q => decide (containedG q xi xj yk yl)) := by
        apply List.mem_filter.mpr
        refine ⟨hmem, ?_⟩
        simp only [containedG, decide_eq_true_eq]
        omega
      have hpos : 1 ≤ countIn RIv xi xj yk yl := List.length_pos_of_mem hqf
      show (1 : Int) ≤ (countIn RIv xi xj yk yl : Int)
      exact_mod_cast hpos
    · rw [hcut]
      have hL := ihm (measureW xi c yk yl) (by unfold measureW at *; omega)
        xi c yk yl rfl
      have hR := ihm (measureW c xj yk yl) (by unfold measureW at *; omega)
        c xj yk yl rfl
      have hsplit : countIn RIv xi c yk yl + countIn RIv c xj yk yl ≤
          countIn RIv xi xj yk yl := by
        apply length_filter_disjoint_add
        · intro a _ ha
          simp only [containedG, decide_eq_true_eq] at ha ⊢
          omega
        · intro a _ ha
          simp only [containedG, decide_eq_true_eq] at ha ⊢
          omega
        · intro a hamem hboth
          simp only [containedG, decide_eq_true_eq] at hboth
          have hv := hval a hamem
          omega
      have : (countIn RIv xi c yk yl : Int) + countIn RIv c xj yk yl ≤
          countIn RIv xi xj yk yl := by exact_mod_cast hsplit
      dsimp only
      omega
    · rw [hcut]
      have hL := ihm (measureW xi xj yk c) (by unfold measureW at *; omega)
        xi xj yk c rfl
      have hR := ihm (measureW xi xj c yl) (by unfold measureW at *; omega)
        xi xj c yl rfl
      have hsplit : countIn RIv xi xj yk c + countIn RIv xi xj c yl ≤
          countIn RIv xi xj yk yl := by
        apply length_filter_disjoint_add
        · intro a _ ha
          simp only [containedG, decide_eq_true_eq] at ha ⊢
          omega
        · intro a _ ha
          simp only [containedG, decide_eq_true_eq] at ha ⊢
          omega
        · intro a hamem hboth
          simp only [containedG, decide_eq_true_eq] at hboth
          have hv := hval a hamem
          omega
      have : (countIn RIv xi xj yk c : Int) + countIn RIv xi xj c yl ≤
          countIn RIv xi xj yk yl := by exact_mod_cast hsplit
      dsimp only
      omega

/-- A window fully containing some rectangle always achieves value at
least 1: either a rectangle exactly fills it (leaf), or some cut at one
of that rectangle's boundaries keeps it whole in one sub-window. -/
theorem solve_val_pos (RIv : List RI)
    (hval : ∀ q ∈ RIv, q.xl < q.xr ∧ q.yb < q.yt) :
    ∀ m xi xj yk yl, measureW xi xj yk yl = m →
      windowHasAnyRect RIv xi xj yk yl = true →
      1 ≤ (solve RIv xi xj yk yl).val := by
  intro m
  induction m using Nat.strong_induction_on with
  | _ m ihm =>
    intro xi xj yk yl hm hr
    have hex : ∃ q ∈ RIv, containedG q xi xj yk yl := by
      have := hr
      unfold windowHasAnyRect at this
      rcases List.any_eq_true.mp this with ⟨q, hq, hdq⟩
      exact ⟨q, hq, of_decide_eq_true hdq⟩
    rcases hex with ⟨q, hqmem, hqc⟩
    have hvq := hval q hqmem
    rcases hqc with ⟨hxl, hxr, hyb, hyt⟩
    have h1 : ¬(xj ≤ xi ∨ yl ≤ yk) := by omega
    have hfold := solve_fold RIv xi xj yk yl h1 hr
    by_cases hsxl : xi < q.xl
    · have hrR : windowHasAnyRect RIv q.xl xj yk yl = true := by
        unfold windowHasAnyRect
        apply List.any_eq_true.mpr
        refine ⟨q, hqmem, decide_eq_true ?_⟩
        exact ⟨le_refl _, hxr, hyb, hyt⟩
      have hvR := ihm (measureW q.xl xj yk yl)
        (by unfold measureW at *; omega) q.xl xj yk yl rfl hrR
      have hvL := solve_val_nonneg RIv xi q.xl yk yl
      have hcand : (⟨(solve RIv xi q.xl yk yl).val + (solve RIv q.xl xj yk yl).val,
          ⟨2, q.xl⟩⟩ : Answer) ∈ vertCands RIv xi xj yk yl := by
        unfold vertCands
        exact List.mem_map.mpr ⟨q.xl, List.mem_range'_1.mpr ⟨by omega, by omega⟩, rfl⟩
      have hle := foldl_improve_mem_le
        (vertCands RIv xi xj yk yl ++ horizCands RIv xi xj yk yl)
        (leafAns RIv xi xj yk yl) _ (List.mem_append_left _ hcand)
      rw [← hfold] at hle
      dsimp only at hle
      omega
    by_cases hsxr : q.xr < xj
    · have hrL : windowHasAnyRect RIv xi q.xr yk yl = true := by
        unfold windowHasAnyRect
        apply List.any_eq_true.mpr
        refine ⟨q, hqmem, decide_eq_true ?_⟩
        exact ⟨hxl, le_refl _, hyb, hyt⟩
      have hvL := ihm (measureW xi q.xr yk yl)
        (by unfold measureW at *; omega) xi q.xr yk yl rfl hrL
      have hvR := solve_val_nonneg RIv q.xr xj yk yl
      have hcand : (⟨(solve RIv xi q.xr yk yl).val + (solve RIv q.xr xj yk yl).val,
          ⟨2, q.xr⟩⟩ : Answer) ∈ vertCands RIv xi xj yk yl := by
        unfold vertCands
        exact List.mem_map.mpr ⟨q.xr, List.mem_range'_1.mpr ⟨by omega, by omega⟩, rfl⟩
      have hle := foldl_improve_mem_le
        (vertCands RIv xi xj yk yl ++ horizCands RIv xi xj yk yl)
        (leafAns RIv xi xj yk yl) _ (List.mem_append_left _ hcand)
      rw [← hfold] at hle
      dsimp only at hle
      omega
    by_cases hsyb : yk < q.yb
    · have hrT : windowHasAnyRect RIv xi xj q.yb yl = true := by
        unfold windowHasAnyRect
        apply List.any_eq_true.mpr
        refine ⟨q, hqmem, decide_eq_true ?_⟩
        exact ⟨hxl, hxr, le_refl _, hyt⟩
      have hvT := ihm (measureW xi xj q.yb yl)
        (by unfold measureW at *; omega) xi xj q.yb yl rfl hrT
      have hvB := solve_val_nonneg RIv xi xj yk q.yb
      have hcand : (⟨(solve RIv xi xj yk q.yb).val + (solve RIv xi xj q.yb yl).val,
          ⟨3, q.yb⟩⟩ : Answer) ∈ horizCands RIv xi xj yk yl := by
        unfold horizCands
        exact List.mem_map.mpr ⟨q.yb, List.mem_range'_1.mpr ⟨by omega, by omega⟩, rfl⟩
      have hle := foldl_improve_mem_le
        (vertCands RIv xi xj yk yl ++ horizCands RIv xi xj yk yl)
        (leafAns RIv xi xj yk yl) _ (List.mem_append_right _ hcand)
      rw [← hfold] at hle
      dsimp only at hle
      omega
    by_cases hsyt : q.yt < yl
    · have hrB : windowHasAnyRect RIv xi xj yk q.yt = true := by
        unfold windowHasAnyRect
        apply List.any_eq_true.mpr
        refine ⟨q, hqmem, decide_eq_true ?_⟩
        exact ⟨hxl, hxr, hyb, le_refl _⟩
      have hvB := ihm (measureW xi xj yk q.yt)
        (by unfold measureW at *; omega) xi xj yk q.yt rfl hrB
      have hvT := solve_val_nonneg RIv xi xj q.yt yl
      have hcand : (⟨(solve RIv xi xj yk q.yt).val + (solve RIv xi xj q.yt yl).val,
          ⟨3, q.yt⟩⟩ : Answer) ∈ horizCands RIv xi xj yk yl := by
        unfold horizCands
        exact List.mem_map.mpr ⟨q.yt, List.mem_range'_1.mpr ⟨by omega, by omega⟩, rfl⟩
      have hle := foldl_improve_mem_le
        (vertCands RIv xi xj yk yl ++ horizCands RIv xi xj yk yl)
        (leafAns RIv xi xj yk yl) _ (List.mem_append_right _ hcand)
      rw [← hfold] at hle
      dsimp only at hle
      omega
    · -- the window exactly matches `q`: the leaf scan finds some match
      have hq_eq : q.xl = xi ∧ q.xr = xj ∧ q.yb = yk ∧ q.yt = yl := by omega
      rcases List.getElem_of_mem hqmem with ⟨rid, hridlt, hrid⟩
      have hexm : exactMatch RIv rid xi xj yk yl = true := by
        unfold exactMatch
        rw [List.getElem?_eq_getElem hridlt, hrid]
        simp only [Bool.and_eq_true, decide_eq_true_eq]
        omega
      have hfound : ∃ rid2 ∈ List.range RIv.length,
          exactMatch RIv rid2 xi xj yk yl = true :=
        ⟨rid, by simpa using hridlt, hexm⟩
      have hleaf1 : (leafAns RIv xi xj yk yl).val = 1 := by
        unfold leafAns
        cases hf : (List.range RIv.length).find?
            (fun rid => exactMatch RIv rid xi xj yk yl) with
        | none =>
          exfalso
          rcases hfound with ⟨rid2, hr2, he2⟩
          have := List.find?_eq_none.mp hf rid2 hr2
          rw [he2] at this
          exact this rfl
        | some rid2 => rfl
      have hle := foldl_improve_init_le
        (vertCands RIv xi xj yk yl ++ horizCands RIv xi xj yk yl)
        (leafAns RIv xi xj yk yl)
      rw [← hfold, hleaf1] at hle
      omega

/-- The compressed axis is strictly sorted. -/
theorem compress_sorted (l : List Int) : (compress l).Sorted (· < ·) := by
  unfold compress
  have hs : ((l.insertionSort (· ≤ ·)).dedup).Sorted (· ≤ ·) :=
    List.Pairwise.sublist (List.dedup_sublist _) (List.sorted_insertionSort _ l)
  exact hs.lt_of_le (List.nodup_dedup _)

/-- The compressed axis holds exactly the input values. -/
theorem mem_compress {l : List Int} {a : Int} : a ∈ compress l ↔ a ∈ l := by
  unfold compress
  rw [List.mem_dedup]
  exact (List.perm_insertionSort _ l).mem_iff

/-- `lower_bound` on a sorted list containing the target finds exactly
the target (the indexer's lookups always hit). -/
theorem lowerBound_get? (l : List Int) (t : Int) (hs : l.Sorted (· ≤ ·)) (ht : t ∈ l) :
    l[lowerBound l t]? = some t := by
  induction l with
  | nil => cases ht
  | cons a tl ih =>
    rw [List.sorted_cons] at hs
    by_cases hta : t ≤ a
    · have hat : a = t := by
        rcases List.mem_cons.mp ht with h | h
        · omega
        · have := hs.1 t h
          omega
      have h0 : lowerBound (a :: tl) t = 0 := by
        unfold lowerBound
        rw [List.findIdx_cons]
        simp [hta]
      rw [h0]
      simpa using hat
    · have hstep : lowerBound (a :: tl) t = lowerBound tl t + 1 := by
        unfold lowerBound
        rw [List.findIdx_cons]
        simp [hta]
      have htl : t ∈ tl := by
        rcases List.mem_cons.mp ht with h | h
        · omega
        · exact h
      rw [hstep]
      simpa using ih hs.2 htl

/-- The index found for a present target is within bounds. -/
theorem lowerBound_lt_length (l : List Int) (t : Int)
    (hs : l.Sorted (· ≤ ·)) (ht : t ∈ l) : lowerBound l t < l.length := by
  rcases List.getElem?_eq_some_iff.mp (lowerBound_get? l t hs ht) with ⟨h, _⟩
  exact h

/-- `lower_bound` indices are strictly monotone over present values. -/
theorem lowerBound_lt (l : List Int) (a b : Int) (hs : l.Sorted (· < ·))
    (ha : a ∈ l) (hb : b ∈ l) (hab : a < b) :
    lowerBound l a < lowerBound l b := by
  have hsle : l.Sorted (· ≤ ·) := hs.le_of_lt
  rcases List.getElem?_eq_some_iff.mp (lowerBound_get? l a hsle ha) with ⟨hia, hga⟩
  rcases List.getElem?_eq_some_iff.mp (lowerBound_get? l b hsle hb) with ⟨hib, hgb⟩
  by_contra hcon
  push_neg at hcon
  rcases eq_or_lt_of_le hcon with heq | hlt
  · have h1 := lowerBound_get? l a hsle ha
    have h2 := lowerBound_get? l b hsle hb
    rw [heq, h1] at h2
    simp at h2
    omega
  · have hgg := @List.Sorted.rel_get_of_lt _ _ _ hs
      ⟨lowerBound l b, hib⟩ ⟨lowerBound l a, hia⟩ (Fin.mk_lt_mk.mpr hlt)
    rw [List.get_eq_getElem, List.get_eq_getElem] at hgg
    dsimp only at hgg
    rw [hga, hgb] at hgg
    omega

/-- Weak monotonicity of reading a strictly sorted list. -/
theorem sorted_getElem_le (l : List Int) (hs : l.Sorted (· < ·)) (i j : Nat)
    (hi : i < l.length) (hj : j < l.length) (hij : i ≤ j) :
    l[i] ≤ l[j] := by
  rcases eq_or_lt_of_le hij with heq | hlt
  · subst heq
    exact le_refl _
  · have hgg := @List.Sorted.rel_get_of_lt _ _ _ hs ⟨i, hi⟩ ⟨j, hj⟩ (Fin.mk_lt_mk.mpr hlt)
    rw [List.get_eq_getElem, List.get_eq_getElem] at hgg
    exact le_of_lt hgg

/-- Every indexed rectangle of a valid instance has ordered grid bounds. -/
theorem RIvOf_valid (R : List Rect) (hval : ∀ r ∈ R, r.xl < r.xr ∧ r.yb < r.yt) :
    ∀ q ∈ RIvOf R, q.xl < q.xr ∧ q.yb < q.yt := by
  intro q hq
  rcases List.mem_map.mp hq with ⟨r, hr, rfl⟩
  unfold toRI
  dsimp only
  constructor
  · exact lowerBound_lt (xsOf R) r.xl r.xr (compress_sorted _)
      (mem_compress.mpr (List.mem_flatMap.mpr ⟨r, hr, by simp⟩))
      (mem_compress.mpr (List.mem_flatMap.mpr ⟨r, hr, by simp⟩))
      (hval r hr).1
  · exact lowerBound_lt (ysOf R) r.yb r.yt (compress_sorted _)
      (mem_compress.mpr (List.mem_flatMap.mpr ⟨r, hr, by simp⟩))
      (mem_compress.mpr (List.mem_flatMap.mpr ⟨r, hr, by simp⟩))
      (hval r hr).2

/-- Every indexed rectangle lies inside the full bounding window. -/
theorem RIvOf_contained (R : List Rect) :
    ∀ q ∈ RIvOf R,
      containedG q 0 ((xsOf R).length - 1) 0 ((ysOf R).length - 1) := by
  intro q hq
  rcases List.mem_map.mp hq with ⟨r, hr, rfl⟩
  unfold toRI containedG
  dsimp only
  refine ⟨Nat.zero_le _, ?_, Nat.zero_le _, ?_⟩
  · have := lowerBound_lt_length (xsOf R) r.xr (compress_sorted _).le_of_lt
      (mem_compress.mpr (List.mem_flatMap.mpr ⟨r, hr, by simp⟩))
    omega
  · have := lowerBound_lt_length (ysOf R) r.yt (compress_sorted _).le_of_lt
      (mem_compress.mpr (List.mem_flatMap.mpr ⟨r, hr, by simp⟩))
    omega

/-- A non-empty instance makes the full bounding window non-pruned. -/
theorem root_hasRect (R : List Rect) (hne : R ≠ []) :
    windowHasAnyRect (RIvOf R) 0 ((xsOf R).length - 1) 0 ((ysOf R).length - 1) = true := by
  rcases List.exists_mem_of_ne_nil R hne with ⟨r, hr⟩
  unfold windowHasAnyRect
  apply List.any_eq_true.mpr
  refine ⟨toRI (xsOf R) (ysOf R) r, List.mem_map.mpr ⟨r, hr, rfl⟩, decide_eq_true ?_⟩
  exact RIvOf_contained R _ (List.mem_map.mpr ⟨r, hr, rfl⟩)

/-- A valid instance has a non-degenerate full bounding window. -/
theorem root_nondeg (R : List Rect) (hne : R ≠ [])
    (hval : ∀ r ∈ R, r.xl < r.xr ∧ r.yb < r.yt) :
    0 < (xsOf R).length - 1 ∧ 0 < (ysOf R).length - 1 := by
  rcases List.exists_mem_of_ne_nil R hne with ⟨r, hr⟩
  have hmem : toRI (xsOf R) (ysOf R) r ∈ RIvOf R := List.mem_map.mpr ⟨r, hr, rfl⟩
  have hq := RIvOf_valid R hval _ hmem
  have hc := RIvOf_contained R _ hmem
  rcases hc with ⟨_, h2, _, h4⟩
  omega

/-- Grid-level separation of two selected rectangles translates back to
the real plane: their interiors are disjoint (they may share an edge,
since the separating grid line maps to a shared coordinate). -/
theorem gridSep_not_overlap (R : List Rect)
    (a b : Nat) (ha : a < R.length) (hb : b < R.length)
    (hsep : gridSepP (riAt (RIvOf R) a) (riAt (RIvOf R) b)) :
    ¬ overlapReal (R.getD a ⟨0, 0, 0, 0⟩) (R.getD b ⟨0, 0, 0, 0⟩) := by
  have hras : ∀ c : Nat, c < R.length →
      riAt (RIvOf R) c = toRI (xsOf R) (ysOf R) (R.getD c ⟨0, 0, 0, 0⟩) ∧
        (R.getD c ⟨0, 0, 0, 0⟩) ∈ R := by
    intro c hc
    have h1 : R.getD c ⟨0, 0, 0, 0⟩ = R[c] := List.getD_eq_getElem R _ hc
    constructor
    · unfold riAt RIvOf
      rw [List.getD_eq_getElem _ _ (by simpa using hc)]
      rw [List.getElem_map]
      rw [h1]
    · rw [h1]
      exact List.getElem_mem _
  rcases hras a ha with ⟨hqa, hma⟩
  rcases hras b hb with ⟨hqb, hmb⟩
  intro hov
  unfold overlapReal at hov
  have key : ∀ (l : List Int) (u v : Int), l.Sorted (· < ·) → u ∈ l → v ∈ l →
      lowerBound l u ≤ lowerBound l v → u ≤ v := by
    intro l u v hs hu hv hle
    rcases List.getElem?_eq_some_iff.mp (lowerBound_get? l u hs.le_of_lt hu) with ⟨hiu, hgu⟩
    rcases List.getElem?_eq_some_iff.mp (lowerBound_get? l v hs.le_of_lt hv) with ⟨hiv, hgv⟩
    have := sorted_getElem_le l hs _ _ hiu hiv hle
    omega
  rw [hqa, hqb] at hsep
  unfold toRI gridSepP at hsep
  dsimp only at hsep
  have memxs : ∀ r ∈ R, r.xl ∈ xsOf R ∧ r.xr ∈ xsOf R := fun r hr =>
    ⟨mem_compress.mpr (List.mem_flatMap.mpr ⟨r, hr, by simp⟩),
     mem_compress.mpr (List.mem_flatMap.mpr ⟨r, hr, by simp⟩)⟩
  have memys : ∀ r ∈ R, r.yb ∈ ysOf R ∧ r.yt ∈ ysOf R := fun r hr =>
    ⟨mem_compress.mpr (List.mem_flatMap.mpr ⟨r, hr, by simp⟩),
     mem_compress.mpr (List.mem_flatMap.mpr ⟨r, hr, by simp⟩)⟩
  rcases hsep with h | h | h | h
  · have := key (xsOf R) (R.getD a ⟨0, 0, 0, 0⟩).xr (R.getD b ⟨0, 0, 0, 0⟩).xl
      (compress_sorted _) (memxs _ hma).2 (memxs _ hmb).1 h
    omega
  · have := key (xsOf R) (R.getD b ⟨0, 0, 0, 0⟩).xr (R.getD a ⟨0, 0, 0, 0⟩).xl
      (compress_sorted _) (memxs _ hmb).2 (memxs _ hma).1 h
    omega
  · have := key (ysOf R) (R.getD a ⟨0, 0, 0, 0⟩).yt (R.getD b ⟨0, 0, 0, 0⟩).yb
      (compress_sorted _) (memys _ hma).2 (memys _ hmb).1 h
    omega
  · have := key (ysOf R) (R.getD b ⟨0, 0, 0, 0⟩).yt (R.getD a ⟨0, 0, 0, 0⟩).yb
      (compress_sorted _) (memys _ hmb).2 (memys _ hma).1 h
    omega

/-- The fatal input errors of `main` (lines 34-50): a bad or
non-positive first token, a record whose four numbers cannot be read
(the reported line number is carried), or a record with unordered bounds
(the reported rectangle index is carried).  Each corresponds to one
`cerr` diagnostic followed by `return 1`. -/
inductive InputError
  | badN
  | badLine (line : Nat)
  | badRect (idx : Nat)
deriving DecidableEq, Repr

/-- The record-reading loop of `main`: `i` is the current rectangle
index; each record needs four numeric tokens (otherwise the error names
input line `i + 2`) satisfying `xl < xr` and `yb < yt` (otherwise the
error names rectangle `i`).  Tokens are `some v` for a numeric token and
`none` for a token `cin` fails to parse as a number; a missing token is
the end of the list. -/
def readLoop : Nat → Nat → List (Option Int) → Except InputError (List Rect)
  | 0, _, _ => .ok []
  | k+1, i, toks =>
    match toks with
    | some a :: some b :: some c :: some d :: rest =>
      if a < c ∧ b < d then
        match readLoop k (i+1) rest with
        | .ok rs => .ok (⟨a, b, c, d⟩ :: rs)
        | .error e => .error e
      else .error (.badRect i)
    | _ => .error (.badLine (i+2))

/-- The input phase of `main`: read `n`, reject a missing, non-numeric
or non-positive `n`, then read `n` records. -/
def readRects : List (Option Int) → Except InputError (List Rect)
  | [] => .error .badN
  | none :: _ => .error .badN
  | some n :: rest => if n ≤ 0 then .error .badN else readLoop n.toNat 0 rest

/-- The whole program on a token stream: parse, then (only on success)
run the engine and emit the solution block. -/
def runProgram (toks : List (Option Int)) : Except InputError (Int × List Nat) :=
  match readRects toks with
  | .error e => .error e
  | .ok R => .ok (runEngine R)

/-- The four tokens of one well-formed record. -/
def recordToks (r : Rect) : List (Option Int) :=
  [some r.xl, some r.yb, some r.xr, some r.yt]

/-- Modelled from the spec (§6): a well-formed input stream starts with
a numeric token `n > 0` followed by `n` records of four numeric tokens
`xl yb xr yt` with `xl < xr` and `yb < yt` (anything after the `n`-th
record is ignored, as the program stops reading there). -/
def WellFormedInput (toks : List (Option Int)) : Prop :=
  ∃ (n : Int) (R : List Rect) (rest : List (Option Int)),
    0 < n ∧ R.length = n.toNat ∧ (∀ r ∈ R, r.xl < r.xr ∧ r.yb < r.yt) ∧
    toks = some n :: (R.flatMap recordToks ++ rest)

/-- A successful record loop yields exactly `k` valid records and
consumed exactly their tokens. -/
theorem readLoop_ok_shape :
    ∀ k i toks R, readLoop k i toks = .ok R →
      R.length = k ∧ (∀ r ∈ R, r.xl < r.xr ∧ r.yb < r.yt) ∧
      ∃ rest, toks = R.flatMap recordToks ++ rest := by
  intro k
  induction k with
  | zero =>
    intro i toks R h
    simp only [readLoop] at h
    cases h
    exact ⟨rfl, by simp, toks, by simp⟩
  | succ k' ih =>
    intro i toks R h
    simp only [readLoop] at h
    split at h
    · rename_i a b c d rest
      by_cases hcd : a < c ∧ b < d
      · rw [if_pos hcd] at h
        cases hrec : readLoop k' (i+1) rest with
        | error e =>
          rw [hrec] at h
          exact Except.noConfusion h
        | ok rs =>
          rw [hrec] at h
          cases h
          rcases ih (i+1) rest rs hrec with ⟨hlen, hvalid, rest2, hrest⟩
          refine ⟨by simp [hlen], ?_, rest2, ?_⟩
          · intro r hr
            rcases List.mem_cons.mp hr with h | h
            · subst h
              exact hcd
            · exact hvalid r h
          · simp only [List.flatMap_cons, recordToks, List.cons_append, List.append_assoc]
            rw [← hrest]
            simp
      · rw [if_neg hcd] at h
        exact Except.noConfusion h
    · exact Except.noConfusion h

/-- The record loop accepts every well-formed record block. -/
theorem readLoop_of_wellformed :
    ∀ (R : List Rect) (i : Nat) (rest : List (Option Int)),
      (∀ r ∈ R, r.xl < r.xr ∧ r.yb < r.yt) →
      readLoop R.length i (R.flatMap recordToks ++ rest) = .ok R := by
  intro R
  induction R with
  | nil =>
    intro i rest _
    simp [readLoop]
  | cons r rs ih =>
    intro i rest hval
    simp only [List.flatMap_cons, recordToks, List.cons_append, List.append_assoc,
      List.nil_append, List.length_cons]
    simp only [readLoop]
    rw [if_pos (hval r (by simp))]
    rw [ih (i+1) rest (fun x hx => hval x (by simp [hx]))]

/-- C8: the program produces a solution exactly on well-formed inputs;
on malformed input it stops with an error naming the failing line or
record (carried by the `InputError` constructors) and emits no solution
output. -/
theorem c8_output_iff_wellformed (toks : List (Option Int)) :
    (∃ out, runProgram toks = .ok out) ↔ WellFormedInput toks := by
  constructor
  · rintro ⟨out, hout⟩
    unfold runProgram at hout
    cases hR : readRects toks with
    | error e =>
      rw [hR] at hout
      exact Except.noConfusion hout
    | ok R =>
      cases toks with
      | nil => exact Except.noConfusion hR
      | cons t rest =>
        cases t with
        | none => exact Except.noConfusion hR
        | some n =>
          simp only [readRects] at hR
          by_cases hn : n ≤ 0
          · rw [if_pos hn] at hR
            exact Except.noConfusion hR
          · rw [if_neg hn] at hR
            rcases readLoop_ok_shape n.toNat 0 rest R hR with ⟨hlen, hvalid, rest2, hrest⟩
            exact ⟨n, R, rest2, by omega, hlen, hvalid, by rw [hrest]⟩
  · rintro ⟨n, R, rest, hn, hlen, hval, htoks⟩
    subst htoks
    have hread : readRects (some n :: (R.flatMap recordToks ++ rest)) = .ok R := by
      simp only [readRects]
      rw [if_neg (by omega)]
      have hloop := readLoop_of_wellformed R 0 rest hval
      rw [hlen] at hloop
      exact hloop
    refine ⟨runEngine R, ?_⟩
    unfold runProgram
    rw [hread]

/-- C1: for every valid instance, the number of ids produced by
reconstruction started at the full bounding window equals the value the
memo stores for the root window, which is the root value returned by
`solve`. -/
theorem c1_recon_length_eq_root_val (R : List Rect) (hv : ValidRects R) :
    ((runEngine R).2.length : Int) =
      (solve (RIvOf R) 0 ((xsOf R).length - 1) 0 ((ysOf R).length - 1)).val := by
  rcases hv with ⟨hne, hval⟩
  have hnd := root_nondeg R hne hval
  have hroot : (⟨0, (xsOf R).length - 1, 0, (ysOf R).length - 1⟩ : Key) ∈
      memoSet (RIvOf R) 0 ((xsOf R).length - 1) 0 ((ysOf R).length - 1) :=
    self_mem_memoSetF (RIvOf R) _ 0 ((xsOf R).length - 1) 0 ((ysOf R).length - 1)
      (le_refl _) hnd.1 hnd.2
  exact reconF_length (RIvOf R) 0 ((xsOf R).length - 1) 0 ((ysOf R).length - 1)
    (measureW 0 ((xsOf R).length - 1) 0 ((ysOf R).length - 1))
    0 ((xsOf R).length - 1) 0 ((ysOf R).length - 1) (le_refl _) hroot

/-- C2: the ids returned by reconstruction name pairwise
non-overlapping rectangles (disjoint interiors in the real plane;
sharing an edge is permitted), and every selected id stems from a stored
leaf choice whose window exactly equals that rectangle's grid bounds (so
the rectangle lies inside the window that named it). -/
theorem c2_selection_disjoint (R : List Rect) (hv : ValidRects R) :
    ((runEngine R).2.Pairwise
      (fun a b => ¬ overlapReal (R.getD a ⟨0, 0, 0, 0⟩) (R.getD b ⟨0, 0, 0, 0⟩))) ∧
    ∀ a ∈ (runEngine R).2, a < R.length ∧
      ∃ K ∈ memoSet (RIvOf R) 0 ((xsOf R).length - 1) 0 ((ysOf R).length - 1),
        solve (RIvOf R) K.xi K.xj K.yk K.yl = ⟨1, ⟨1, a⟩⟩ ∧
        exactMatch (RIvOf R) a K.xi K.xj K.yk K.yl = true := by
  rcases hv with ⟨hne, hval⟩
  have hnd := root_nondeg R hne hval
  have hroot : (⟨0, (xsOf R).length - 1, 0, (ysOf R).length - 1⟩ : Key) ∈
      memoSet (RIvOf R) 0 ((xsOf R).length - 1) 0 ((ysOf R).length - 1) :=
    self_mem_memoSetF (RIvOf R) _ 0 ((xsOf R).length - 1) 0 ((ysOf R).length - 1)
      (le_refl _) hnd.1 hnd.2
  have hs := reconF_sound (RIvOf R) 0 ((xsOf R).length - 1) 0 ((ysOf R).length - 1)
    (measureW 0 ((xsOf R).length - 1) 0 ((ysOf R).length - 1))
    0 ((xsOf R).length - 1) 0 ((ysOf R).length - 1) (le_refl _) hroot
  have hlen : (RIvOf R).length = R.length := by unfold RIvOf; simp
  have hre : (runEngine R).2 =
      reconF (theMemo (RIvOf R) 0 ((xsOf R).length - 1) 0 ((ysOf R).length - 1))
        (measureW 0 ((xsOf R).length - 1) 0 ((ysOf R).length - 1))
        0 ((xsOf R).length - 1) 0 ((ysOf R).length - 1) := rfl
  constructor
  · rw [hre]
    refine List.Pairwise.imp_of_mem ?_ hs.2
    intro a b ha hb hsep
    have haR := (hs.1 a ha).1
    have hbR := (hs.1 b hb).1
    exact gridSep_not_overlap R a b (by omega) (by omega) hsep
  · intro a ha
    rw [hre] at ha
    have h1 := hs.1 a ha
    exact ⟨by omega, h1.2.2⟩

/-- C4: a non-degenerate window with no fully contained rectangle (the
containment test requires the rectangle's grid bounds fully inside the
window, not mere overlap) is assigned value 0 with an absent choice, and
its solve stores only the window itself in the memo — no cut is
explored. -/
theorem c4_pruned_window (RIv : List RI) (xi xj yk yl : Nat)
    (hx : xi < xj) (hy : yk < yl)
    (hr : windowHasAnyRect RIv xi xj yk yl = false) :
    solve RIv xi xj yk yl = ⟨0, {}⟩ ∧
    memoSet RIv xi xj yk yl = [⟨xi, xj, yk, yl⟩] := by
  refine ⟨solve_pruned RIv xi xj yk yl hr, ?_⟩
  unfold memoSet
  have hμ : 2 ≤ measureW xi xj yk yl := by unfold measureW; omega
  obtain ⟨m, hm⟩ : ∃ m, measureW xi xj yk yl = m + 1 :=
    ⟨measureW xi xj yk yl - 1, by omega⟩
  rw [hm]
  simp only [memoSetF]
  rw [if_neg (by omega), if_neg (by simp [hr])]

/-- C5: on a non-degenerate, non-pruned window the stored answer is the
first entry of the candidate enumeration — leaf scan first (which itself
takes the lowest-index exact match), then vertical cuts in increasing
column order, then horizontal cuts in increasing row order — that
attains the overall maximum value: an equal-valued later candidate never
overrides an earlier one, and the leaf is retained unless some cut is
strictly better. -/
theorem c5_first_argmax (RIv : List RI) (xi xj yk yl : Nat)
    (h1 : ¬(xj ≤ xi ∨ yl ≤ yk)) (hr : windowHasAnyRect RIv xi xj yk yl = true) :
    (candList RIv xi xj yk yl).find?
      (fun a => decide (a.val =
        maxValFrom (leafAns RIv xi xj yk yl).val
          (vertCands RIv xi xj yk yl ++ horizCands RIv xi xj yk yl))) =
      some (solve RIv xi xj yk yl) := by
  unfold candList
  rw [solve_fold RIv xi xj yk yl h1 hr]
  exact find_first_max _ _

/-- C6: the engine is a pure function of the input rectangle list — two
runs on equal inputs produce the identical value and the identical id
sequence (the same ids in the same order). -/
theorem c6_deterministic (R1 R2 : List Rect) (h : R1 = R2) :
    runEngine R1 = runEngine R2 := by
  rw [h]

/-- C7: for every valid instance and every window `solve` can be invoked
on (in particular every window whose entry is ever stored in the memo),
the computed value `v` satisfies `0 ≤ v ≤ n` with `n` the number of
input rectangles. -/
theorem c7_value_bounds (R : List Rect) (hv : ValidRects R) (xi xj yk yl : Nat) :
    0 ≤ (solve (RIvOf R) xi xj yk yl).val ∧
    (solve (RIvOf R) xi xj yk yl).val ≤ (R.length : Int) := by
  refine ⟨solve_val_nonneg _ _ _ _ _, ?_⟩
  have h1 := solve_val_le_countIn (RIvOf R) (RIvOf_valid R hv.2)
    (measureW xi xj yk yl) xi xj yk yl rfl
  have h2 : countIn (RIvOf R) xi xj yk yl ≤ (RIvOf R).length :=
    List.length_filter_le _ _
  have h3 : (RIvOf R).length = R.length := by unfold RIvOf; simp
  omega

/-- C9: on every valid instance (n ≥ 1) the root value is at least 1 —
the program never reports an empty selection for a valid input. -/
theorem c9_root_val_pos (R : List Rect) (hv : ValidRects R) :
    1 ≤ (solve (RIvOf R) 0 ((xsOf R).length - 1) 0 ((ysOf R).length - 1)).val :=
  solve_val_pos (RIvOf R) (RIvOf_valid R hv.2) _ 0 ((xsOf R).length - 1) 0
    ((ysOf R).length - 1) rfl (root_hasRect R hv.1)

/-- C10: every window the reconstruction recursion visits from the full
bounding window has a memo entry written by `solve` — the silent-return
branch on a failed lookup is never executed. -/
theorem c10_recon_visits_memoized (R : List Rect) (hv : ValidRects R) :
    ∀ K ∈ reconVisitedF (theMemo (RIvOf R) 0 ((xsOf R).length - 1) 0 ((ysOf R).length - 1))
        (measureW 0 ((xsOf R).length - 1) 0 ((ysOf R).length - 1))
        0 ((xsOf R).length - 1) 0 ((ysOf R).length - 1),
      theMemo (RIvOf R) 0 ((xsOf R).length - 1) 0 ((ysOf R).length - 1) K =
        some (solve (RIvOf R) K.xi K.xj K.yk K.yl) := by
  rcases hv with ⟨hne, hval⟩
  have hnd := root_nondeg R hne hval
  have hroot : (⟨0, (xsOf R).length - 1, 0, (ysOf R).length - 1⟩ : Key) ∈
      memoSet (RIvOf R) 0 ((xsOf R).length - 1) 0 ((ysOf R).length - 1) :=
    self_mem_memoSetF (RIvOf R) _ 0 ((xsOf R).length - 1) 0 ((ysOf R).length - 1)
      (le_refl _) hnd.1 hnd.2
  intro K hK
  have hmem := reconVisitedF_memoized (RIvOf R) 0 ((xsOf R).length - 1) 0
    ((ysOf R).length - 1) (measureW 0 ((xsOf R).length - 1) 0 ((ysOf R).length - 1))
    0 ((xsOf R).length - 1) 0 ((ysOf R).length - 1) (le_refl _) hroot K hK
  unfold theMemo
  rw [if_pos hmem]

/-- A one-rectangle instance used to instantiate the general theorems. -/
def Rone : List Rect := [⟨0, 0, 1, 1⟩]

/-- A one-rectangle indexed instance on a 2x2 grid. -/
def RIone : List RI := [⟨0, 1, 0, 1⟩]

/-- C3, counterexample: on R0=(0,0,2,2), R1=(1,1,3,3), R2=(0,2,2,4) the
root window's stored choice is the VERTICAL cut at grid column 2 (found
first, at x = 2; the equal-valued horizontal cut at y = 2 comes later in
the enumeration and does not override it), so the reconstruction does
not proceed via a horizontal cut at the root as the claim states. -/
theorem c3_counterexample :
    (solve (RIvOf Rex) 0 ((xsOf Rex).length - 1) 0 ((ysOf Rex).length - 1)).ch =
      ⟨2, 2⟩ ∧
    ¬ (solve (RIvOf Rex) 0 ((xsOf Rex).length - 1) 0 ((ysOf Rex).length - 1)).ch.type
        = 3 := by
  decide

/-- C3, amended: the engine returns value 2 with exactly R0 and R2
selected (R1 excluded); the reconstruction proceeds via a vertical cut
at x = 2 (grid column 2) separating {R0,R2} from {R1}, and the left
sub-window then resolves via a horizontal cut at y = 2 (grid row 2) into
R0 and R2. -/
theorem c3_amended :
    (runEngine Rex).1 = 2 ∧ (runEngine Rex).2 = [0, 2] ∧
    (solve (RIvOf Rex) 0 ((xsOf Rex).length - 1) 0 ((ysOf Rex).length - 1)).ch =
      ⟨2, 2⟩ ∧
    (xsOf Rex)[2]? = some 2 ∧
    (solve (RIvOf Rex) 0 2 0 ((ysOf Rex).length - 1)).ch = ⟨3, 2⟩ ∧
    (ysOf Rex)[2]? = some 2 := by
  decide

/-- Witness instantiating C1 on the one-rectangle instance. -/
theorem c1_witness : ValidRects Rone ∧
    (((runEngine Rone).2.length : Int) =
      (solve (RIvOf Rone) 0 ((xsOf Rone).length - 1) 0 ((ysOf Rone).length - 1)).val) :=
  ⟨by decide, c1_recon_length_eq_root_val Rone (by decide)⟩

/-- Witness instantiating C2 on the one-rectangle instance. -/
theorem c2_witness : ValidRects Rone ∧
    (((runEngine Rone).2.Pairwise
      (fun a b => ¬ overlapReal (Rone.getD a ⟨0, 0, 0, 0⟩) (Rone.getD b ⟨0, 0, 0, 0⟩))) ∧
    ∀ a ∈ (runEngine Rone).2, a < Rone.length ∧
      ∃ K ∈ memoSet (RIvOf Rone) 0 ((xsOf Rone).length - 1) 0 ((ysOf Rone).length - 1),
        solve (RIvOf Rone) K.xi K.xj K.yk K.yl = ⟨1, ⟨1, a⟩⟩ ∧
        exactMatch (RIvOf Rone) a K.xi K.xj K.yk K.yl = true) :=
  ⟨by decide, c2_selection_disjoint Rone (by decide)⟩

/-- Witness instantiating C4: the window (1,2)x(1,2) of the
one-rectangle grid contains no rectangle. -/
theorem c4_witness : (1 : Nat) < 2 ∧ windowHasAnyRect RIone 1 2 1 2 = false ∧
    (solve RIone 1 2 1 2 = ⟨0, {}⟩ ∧ memoSet RIone 1 2 1 2 = [⟨1, 2, 1, 2⟩]) :=
  ⟨by decide, by decide, c4_pruned_window RIone 1 2 1 2 (by decide) (by decide) (by decide)⟩

/-- Witness instantiating C5 on the full window of the one-rectangle
grid. -/
theorem c5_witness : ¬((1 : Nat) ≤ 0 ∨ (1 : Nat) ≤ 0) ∧
    windowHasAnyRect RIone 0 1 0 1 = true ∧
    ((candList RIone 0 1 0 1).find?
      (fun a => decide (a.val =
        maxValFrom (leafAns RIone 0 1 0 1).val
          (vertCands RIone 0 1 0 1 ++ horizCands RIone 0 1 0 1))) =
      some (solve RIone 0 1 0 1)) :=
  ⟨by decide, by decide, c5_first_argmax RIone 0 1 0 1 (by decide) (by decide)⟩

/-- Witness instantiating C6. -/
theorem c6_witness : Rone = Rone ∧ runEngine Rone = runEngine Rone :=
  ⟨rfl, c6_deterministic Rone Rone rfl⟩

/-- Witness instantiating C7 on the full window of the one-rectangle
instance. -/
theorem c7_witness : ValidRects Rone ∧
    (0 ≤ (solve (RIvOf Rone) 0 1 0 1).val ∧
     (solve (RIvOf Rone) 0 1 0 1).val ≤ (Rone.length : Int)) :=
  ⟨by decide, c7_value_bounds Rone (by decide) 0 1 0 1⟩

/-- Witness instantiating C9. -/
theorem c9_witness : ValidRects Rone ∧
    1 ≤ (solve (RIvOf Rone) 0 ((xsOf Rone).length - 1) 0 ((ysOf Rone).length - 1)).val :=
  ⟨by decide, c9_root_val_pos Rone (by decide)⟩

/-- Witness instantiating C10. -/
theorem c10_witness : ValidRects Rone ∧
    ∀ K ∈ reconVisitedF
        (theMemo (RIvOf Rone) 0 ((xsOf Rone).length - 1) 0 ((ysOf Rone).length - 1))
        (measureW 0 ((xsOf Rone).length - 1) 0 ((ysOf Rone).length - 1))
        0 ((xsOf Rone).length - 1) 0 ((ysOf Rone).length - 1),
      theMemo (RIvOf Rone) 0 ((xsOf Rone).length - 1) 0 ((ysOf Rone).length - 1) K =
        some (solve (RIvOf Rone) K.xi K.xj K.yk K.yl) :=
  ⟨by decide, c10_recon_visits_memoized Rone (by decide)⟩
